import Mathlib

/-!
Verification of the admin panel's front-matter codec, remote content
gateway handlers, and sync reconciler, as shallowly embedded from
`src/astro-admin-panel/src/app/api/posts/route.ts` and
`src/astro-admin-panel/src/app/api/posts/[filename]/route.ts`.
Strings are modelled as `List Char` so that every definition evaluates
by kernel reduction.
-/

namespace AdminPanel

/-- Whitespace characters removed by JavaScript `String.prototype.trim`
(restricted to the ASCII whitespace that can occur in this code path). -/
def isWs (c : Char) : Bool := c = ' ' || c = '\t' || c = '\r' || c = '\n'

/-- JavaScript `String.prototype.trim` on a character list. -/
def trimChars (l : List Char) : List Char :=
  ((l.dropWhile isWs).reverse.dropWhile isWs).reverse

/-- Split a list at the first occurrence of character `c`; mirrors
`indexOf` plus the two `substring` calls in `parseSimpleYaml`. -/
def splitFirstChar (c : Char) : List Char → Option (List Char × List Char)
  | [] => none
  | x :: r =>
    if x = c then some ([], r)
    else (splitFirstChar c r).map (fun p => (x :: p.1, p.2))

example : trimChars "  ab ".data = "ab".data := by decide
example : splitFirstChar ':' "a:b:c".data = some ("a".data, "b:c".data) := by decide
example : "ab".data = ['a', 'b'] := by decide

/-- A JavaScript JSON value, as produced by `JSON.parse`.  Numbers are
kept as their source lexeme: no claim inspects numeric values, and this
avoids committing to a floating-point semantics. -/
inductive Jv where
  | null : Jv
  | bool (b : Bool) : Jv
  | num (lexeme : List Char) : Jv
  | str (s : List Char) : Jv
  | arr (elems : List Jv) : Jv
  | obj (fields : List (List Char × Jv)) : Jv

mutual

def jvDecEq : (a b : Jv) → Decidable (a = b)
  | .null, .null => isTrue rfl
  | .bool x, .bool y =>
    match decEq x y with
    | isTrue h => isTrue (by rw [h])
    | isFalse h => isFalse (fun hh => h (Jv.bool.inj hh))
  | .num x, .num y =>
    match decEq x y with
    | isTrue h => isTrue (by rw [h])
    | isFalse h => isFalse (fun hh => h (Jv.num.inj hh))
  | .str x, .str y =>
    match decEq x y with
    | isTrue h => isTrue (by rw [h])
    | isFalse h => isFalse (fun hh => h (Jv.str.inj hh))
  | .arr x, .arr y =>
    match jvListDecEq x y with
    | isTrue h => isTrue (by rw [h])
    | isFalse h => isFalse (fun hh => h (Jv.arr.inj hh))
  | .obj x, .obj y =>
    match jvFieldsDecEq x y with
    | isTrue h => isTrue (by rw [h])
    | isFalse h => isFalse (fun hh => h (Jv.obj.inj hh))
  | .null, .bool _ => isFalse (fun h => Jv.noConfusion h)
  | .null, .num _ => isFalse (fun h => Jv.noConfusion h)
  | .null, .str _ => isFalse (fun h => Jv.noConfusion h)
  | .null, .arr _ => isFalse (fun h => Jv.noConfusion h)
  | .null, .obj _ => isFalse (fun h => Jv.noConfusion h)
  | .bool _, .null => isFalse (fun h => Jv.noConfusion h)
  | .bool _, .num _ => isFalse (fun h => Jv.noConfusion h)
  | .bool _, .str _ => isFalse (fun h => Jv.noConfusion h)
  | .bool _, .arr _ => isFalse (fun h => Jv.noConfusion h)
  | .bool _, .obj _ => isFalse (fun h => Jv.noConfusion h)
  | .num _, .null => isFalse (fun h => Jv.noConfusion h)
  | .num _, .bool _ => isFalse (fun h => Jv.noConfusion h)
  | .num _, .str _ => isFalse (fun h => Jv.noConfusion h)
  | .num _, .arr _ => isFalse (fun h => Jv.noConfusion h)
  | .num _, .obj _ => isFalse (fun h => Jv.noConfusion h)
  | .str _, .null => isFalse (fun h => Jv.noConfusion h)
  | .str _, .bool _ => isFalse (fun h => Jv.noConfusion h)
  | .str _, .num _ => isFalse (fun h => Jv.noConfusion h)
  | .str _, .arr _ => isFalse (fun h => Jv.noConfusion h)
  | .str _, .obj _ => isFalse (fun h => Jv.noConfusion h)
  | .arr _, .null => isFalse (fun h => Jv.noConfusion h)
  | .arr _, .bool _ => isFalse (fun h => Jv.noConfusion h)
  | .arr _, .num _ => isFalse (fun h => Jv.noConfusion h)
  | .arr _, .str _ => isFalse (fun h => Jv.noConfusion h)
  | .arr _, .obj _ => isFalse (fun h => Jv.noConfusion h)
  | .obj _, .null => isFalse (fun h => Jv.noConfusion h)
  | .obj _, .bool _ => isFalse (fun h => Jv.noConfusion h)
  | .obj _, .num _ => isFalse (fun h => Jv.noConfusion h)
  | .obj _, .str _ => isFalse (fun h => Jv.noConfusion h)
  | .obj _, .arr _ => isFalse (fun h => Jv.noConfusion h)

def jvListDecEq : (a b : List Jv) → Decidable (a = b)
  | [], [] => isTrue rfl
  | [], _ :: _ => isFalse (fun h => List.noConfusion h)
  | _ :: _, [] => isFalse (fun h => List.noConfusion h)
  | x :: xs, y :: ys =>
    match jvDecEq x y, jvListDecEq xs ys with
    | isTrue h1, isTrue h2 => isTrue (by rw [h1, h2])
    | isFalse h1, _ => isFalse (fun hh => h1 (List.cons.inj hh).1)
    | _, isFalse h2 => isFalse (fun hh => h2 (List.cons.inj hh).2)

def jvFieldsDecEq : (a b : List (List Char × Jv)) → Decidable (a = b)
  | [], [] => isTrue rfl
  | [], _ :: _ => isFalse (fun h => List.noConfusion h)
  | _ :: _, [] => isFalse (fun h => List.noConfusion h)
  | (k1, v1) :: xs, (k2, v2) :: ys =>
    match decEq k1 k2, jvDecEq v1 v2, jvFieldsDecEq xs ys with
    | isTrue h1, isTrue h2, isTrue h3 => isTrue (by rw [h1, h2, h3])
    | isFalse h1, _, _ =>
      isFalse (fun hh => h1 (congrArg Prod.fst ((List.cons.inj hh).1)))
    | _, isFalse h2, _ =>
      isFalse (fun hh => h2 (congrArg Prod.snd ((List.cons.inj hh).1)))
    | _, _, isFalse h3 => isFalse (fun hh => h3 (List.cons.inj hh).2)

end

instance : DecidableEq Jv := jvDecEq

/-- Whitespace accepted between JSON tokens. -/
def jws (c : Char) : Bool := c = ' ' || c = '\t' || c = '\n' || c = '\r'

/-- Drop leading JSON whitespace. -/
def skipWs (l : List Char) : List Char := l.dropWhile jws

/-- Decimal digit test. -/
def isDigit (c : Char) : Bool := 48 ≤ c.toNat && c.toNat ≤ 57

/-- Hex digit value, for `\u` escapes (digits, then the two letter
ranges, via code points). -/
def hexVal (c : Char) : Option Nat :=
  let n := c.toNat
  if 48 ≤ n && n ≤ 57 then some (n - 48)
  else if 97 ≤ n && n ≤ 102 then some (n - 87)
  else if 65 ≤ n && n ≤ 70 then some (n - 55)
  else none

/-- The table of single-character JSON string escapes. -/
def escTable : List (Char × Char) :=
  [('"', '"'), ('\\', '\\'), ('/', '/'), ('b', Char.ofNat 8), ('f', Char.ofNat 12),
    ('n', '\n'), ('r', '\r'), ('t', '\t')]

/-- Single-character JSON string escapes, by table lookup. -/
def escChar (c : Char) : Option Char :=
  (escTable.find? (fun p => p.1 == c)).map (fun p => p.2)

/-- Parse the body of a JSON string after the opening quote; returns the
decoded characters and the input remaining after the closing quote. -/
def parseJStr : List Char → Option (List Char × List Char)
  | [] => none
  | c :: r =>
    if c = '"' then some ([], r)
    else if c = '\\' then
      match r with
      | [] => none
      | e :: r2 =>
        if e = 'u' then
          match r2 with
          | h1 :: h2 :: h3 :: h4 :: r3 =>
            match hexVal h1, hexVal h2, hexVal h3, hexVal h4 with
            | some a, some b, some v3, some d =>
              (parseJStr r3).map
                (fun p => (Char.ofNat ((a * 16 + b) * 256 + (v3 * 16 + d)) :: p.1, p.2))
            | _, _, _, _ => none
          | _ => none
        else
          match escChar e with
          | some c2 => (parseJStr r2).map (fun p => (c2 :: p.1, p.2))
          | none => none
    else if c.toNat < 32 then none
    else (parseJStr r).map (fun p => (c :: p.1, p.2))

/-- One or more decimal digits: returns them and the rest. -/
def digits1 : List Char → Option (List Char × List Char)
  | [] => none
  | c :: r =>
    if isDigit c then some (c :: r.takeWhile isDigit, r.dropWhile isDigit)
    else none

/-- Parse a JSON number, returning its lexeme and the rest. -/
def parseJNum (cs : List Char) : Option (List Char × List Char) :=
  let (sign, cs1) := match cs with
    | '-' :: r => (['-'], r)
    | _ => (([] : List Char), cs)
  match cs1 with
  | '0' :: r => some (sign ++ ['0'], r)
  | _ =>
    match digits1 cs1 with
    | some (ds, r) => some (sign ++ ds, r)
    | none => none

/-- Parse an optional fraction part (`.` plus digits). -/
def parseFrac (cs : List Char) : Option (List Char × List Char) :=
  match cs with
  | '.' :: r =>
    match digits1 r with
    | some (ds, r2) => some ('.' :: ds, r2)
    | none => none
  | _ => some ([], cs)

/-- Parse an optional exponent part. -/
def parseExp (cs : List Char) : Option (List Char × List Char) :=
  match cs with
  | e :: r =>
    if e = 'e' || e = 'E' then
      match r with
      | s :: r2 =>
        if s = '+' || s = '-' then
          match digits1 r2 with
          | some (ds, r3) => some (e :: s :: ds, r3)
          | none => none
        else
          match digits1 r with
          | some (ds, r3) => some (e :: ds, r3)
          | none => none
      | [] => none
    else some ([], e :: r)
  | [] => some ([], [])

/-- Full JSON number: integer part, fraction, exponent. -/
def parseJNumber (cs : List Char) : Option (List Char × List Char) :=
  match parseJNum cs with
  | none => none
  | some (int, r1) =>
    match parseFrac r1 with
    | none => none
    | some (frac, r2) =>
      match parseExp r2 with
      | none => none
      | some (ex, r3) => some (int ++ frac ++ ex, r3)

mutual

/-- Parse one JSON value (fuelled; the fuel bounds recursion depth plus
collection length, and the callers always supply enough). -/
def parseJVal : Nat → List Char → Option (Jv × List Char)
  | 0, _ => none
  | fuel + 1, cs =>
    match skipWs cs with
    | [] => none
    | c :: r =>
      if c = 'n' then
        if "ull".data.isPrefixOf r then some (.null, r.drop 3) else none
      else if c = 't' then
        if "rue".data.isPrefixOf r then some (.bool true, r.drop 3) else none
      else if c = 'f' then
        if "alse".data.isPrefixOf r then some (.bool false, r.drop 4) else none
      else if c = '"' then
        (parseJStr r).map (fun p => (.str p.1, p.2))
      else if c = '[' then
        match skipWs r with
        | [] => none
        | c2 :: r2 =>
          if c2 = ']' then some (.arr [], r2)
          else (parseJItems fuel (c2 :: r2)).map (fun p => (.arr p.1, p.2))
      else if c = '{' then
        match skipWs r with
        | [] => none
        | c2 :: r2 =>
          if c2 = '}' then some (.obj [], r2)
          else (parseJFields fuel (c2 :: r2)).map (fun p => (.obj p.1, p.2))
      else (parseJNumber (c :: r)).map (fun p => (.num p.1, p.2))

/-- Parse the elements of a non-empty JSON array up to and including the
closing bracket. -/
def parseJItems : Nat → List Char → Option (List Jv × List Char)
  | 0, _ => none
  | fuel + 1, cs =>
    match parseJVal fuel cs with
    | none => none
    | some (v, r) =>
      match skipWs r with
      | [] => none
      | c :: r2 =>
        if c = ']' then some ([v], r2)
        else if c = ',' then
          match parseJItems fuel r2 with
          | some (vs, r3) => some (v :: vs, r3)
          | none => none
        else none

/-- Parse the fields of a non-empty JSON object up to and including the
closing brace. -/
def parseJFields : Nat → List Char → Option (List (List Char × Jv) × List Char)
  | 0, _ => none
  | fuel + 1, cs =>
    match skipWs cs with
    | [] => none
    | c0 :: r0 =>
      if c0 = '"' then
        match parseJStr r0 with
        | none => none
        | some (k, r1) =>
          match skipWs r1 with
          | [] => none
          | c1 :: r2 =>
            if c1 = ':' then
              match parseJVal fuel r2 with
              | none => none
              | some (v, r3) =>
                match skipWs r3 with
                | [] => none
                | c3 :: r4 =>
                  if c3 = '}' then some ([(k, v)], r4)
                  else if c3 = ',' then
                    match parseJFields fuel r4 with
                    | some (fs, r5) => some ((k, v) :: fs, r5)
                    | none => none
                  else none
            else none
      else none

end

/-- `JSON.parse` on a whole string: the value must consume the entire
input up to trailing whitespace. -/
def jsonParse (cs : List Char) : Option Jv :=
  match parseJVal (cs.length + 1) cs with
  | some (v, rest) => if skipWs rest = [] then some v else none
  | none => none

example : jsonParse "[\"x\", \"y\"]".data = some (.arr [.str "x".data, .str "y".data]) := by decide
example : jsonParse "[1, 2]".data = some (.arr [.num "1".data, .num "2".data]) := by decide
example : jsonParse "[x]".data = none := by decide
example : jsonParse "[]".data = some (.arr []) := by decide
example : jsonParse "[\"a\\\"b\"]".data = some (.arr [.str "a\"b".data]) := by decide

/-! ## Front-matter codec: decode (`parseSimpleYaml` and the regex in `GET`) -/

/-- The front-matter mapping: string keys to JSON values, in insertion
order (mirroring a JavaScript object with string keys). -/
abbrev Fm := List (List Char × Jv)

/-- `result[key] = value` on a JavaScript object: replaces the value of
an existing key in place, otherwise appends a fresh entry. -/
def insertRecord (acc : Fm) (k : List Char) (v : Jv) : Fm :=
  if acc.any (fun p => p.1 == k) then
    acc.map (fun p => if p.1 == k then (k, v) else p)
  else acc ++ [(k, v)]

/-- The quote-removal step of `parseSimpleYaml`: one layer of matching
surrounding double or single quotes is stripped. -/
def stripQuotes (v : List Char) : List Char :=
  if (v.head? = some '"' ∧ v.getLast? = some '"')
      ∨ (v.head? = some '\'' ∧ v.getLast? = some '\'') then
    (v.drop 1).dropLast
  else v

/-- The array-detection step of `parseSimpleYaml`: if the value starts
with `[` and ends with `]`, attempt `JSON.parse`, keeping the raw string
when parsing fails. -/
def jsValue (v : List Char) : Jv :=
  if v.head? = some '[' ∧ v.getLast? = some ']' then
    match jsonParse v with
    | some j => j
    | none => .str v
  else .str v

/-- One line of `parseSimpleYaml`: skip blank lines and `#` comments,
require a colon at a positive index, then trim key and value, strip
quotes and attempt the array parse. -/
def parseLine (line : List Char) : Option (List Char × Jv) :=
  let trimmed := trimChars line
  if trimmed = [] then none
  else if trimmed.head? = some '#' then none
  else
    match splitFirstChar ':' trimmed with
    | none => none
    | some (pre, post) =>
      if pre = [] then none
      else some (trimChars pre, jsValue (stripQuotes (trimChars post)))

/-- JavaScript `split('\n')`. -/
def splitLines : List Char → List (List Char)
  | [] => [[]]
  | c :: r =>
    if c = '\n' then [] :: splitLines r
    else
      match splitLines r with
      | l :: ls => (c :: l) :: ls
      | [] => [[c]]

/-- `parseSimpleYaml` from `src/app/api/posts/route.ts`: fold the line
parser over the lines of the header text. -/
def parseSimpleYaml (yamlText : List Char) : Fm :=
  (splitLines yamlText).foldl
    (fun acc line =>
      match parseLine line with
      | some (k, v) => insertRecord acc k v
      | none => acc)
    []

/-- The opening front-matter delimiter recognised by the regex
`^---\n([\s\S]*?)\n---\n([\s\S]*)$`. -/
def fmOpen : List Char := ['-', '-', '-', '\n']

/-- The closing front-matter delimiter of the same regex. -/
def fmClose : List Char := ['\n', '-', '-', '-', '\n']

/-- Split a list at the first occurrence of the pattern `pat`, returning
the pieces before and after it. -/
def splitOnFirst (pat : List Char) : List Char → Option (List Char × List Char)
  | [] => none
  | c :: r =>
    if pat.isPrefixOf (c :: r) then some ([], (c :: r).drop pat.length)
    else (splitOnFirst pat r).map (fun p => (c :: p.1, p.2))

/-- The front-matter regex match: the input must begin with an opening
`---` line, and the non-greedy group ends at the first occurrence of a
closing `---` line. -/
def extractFrontMatter (cs : List Char) : Option (List Char × List Char) :=
  if fmOpen.isPrefixOf cs then splitOnFirst fmClose (cs.drop 4) else none

/-- The decode path of the `GET` handler: on a regex match, parse the
header with `parseSimpleYaml` and keep the rest as the body; otherwise
empty front matter and the whole input as body. -/
def decodeContent (cs : List Char) : Fm × List Char :=
  match extractFrontMatter cs with
  | some (header, body) => (parseSimpleYaml header, body)
  | none => ([], cs)

example :
    decodeContent "---\ntitle: \"Hi\"\ntags: [\"x\", \"y\"]\n---\nBody text".data =
      ([("title".data, .str "Hi".data),
        ("tags".data, .arr [.str "x".data, .str "y".data])], "Body text".data) := by
  decide

/-! ## Front-matter codec: encode (the `PUT` handler's frontmatter string) -/

mutual

/-- JavaScript string coercion of a JSON value, as a template literal
performs it (arrays join their elements with commas, nulls inside an
array render as the empty string, objects render opaquely). -/
def jsToString : Jv → List Char
  | .null => "null".data
  | .bool true => "true".data
  | .bool false => "false".data
  | .num lexeme => lexeme
  | .str s => s
  | .arr es => joinSepJs es
  | .obj _ => "[object Object]".data

/-- Comma-joining of array members inside a JavaScript string coercion;
`null` members render as the empty string. -/
def joinSepJs : List Jv → List Char
  | [] => []
  | [.null] => []
  | [e] => jsToString e
  | .null :: es => ',' :: joinSepJs es
  | e :: es => jsToString e ++ ',' :: joinSepJs es

end

/-- `[...].join(sep)` on rendered pieces. -/
def joinSep (sep : List Char) : List (List Char) → List Char
  | [] => []
  | [l] => l
  | l :: ls => l ++ sep ++ joinSep sep ls

/-- One line of the frontmatter string built by the `PUT` handler:
arrays render as a bracketed, comma-separated list of double-quoted
elements, every other value double-quoted via string coercion. -/
def renderEntry (kv : List Char × Jv) : List Char :=
  match kv.2 with
  | .arr es =>
    kv.1 ++ ": [".data ++
      joinSep ", ".data (es.map (fun e => '"' :: jsToString e ++ ['"'])) ++ [']']
  | v => kv.1 ++ ": \"".data ++ jsToString v ++ ['"']

/-- The full content assembled by the `PUT` handler: a header block when
the front matter is non-empty, then the body. -/
def encodeFM (fm : Fm) (body : List Char) : List Char :=
  if fm = [] then body
  else "---\n".data ++ joinSep ['\n'] (fm.map renderEntry) ++ "\n---\n\n".data ++ body

example :
    encodeFM [("title".data, .str "A".data)] "B".data =
      "---\ntitle: \"A\"\n---\n\nB".data := by decide

example :
    decodeContent (encodeFM [("title".data, .str "A".data)] "B".data) =
      ([("title".data, .str "A".data)], "\nB".data) := by decide

/-! ## Remote Content Gateway: the `PUT` and `DELETE` route handlers -/

/-- A file held by the Git provider: its revision token (content SHA)
and its content. -/
structure RemoteFile where
  sha : List Char
  content : List Char
deriving DecidableEq

/-- The provider's store, keyed by repository path. -/
abbrev RemoteState := List (List Char × RemoteFile)

/-- `repos.getContent` for a single path. -/
def lookupRemote (st : RemoteState) (path : List Char) : Option RemoteFile :=
  (st.find? (fun p => p.1 == path)).map (fun p => p.2)

/-- The provider's revision token for given content (opaque and
deterministic in the content, like a Git blob SHA). -/
def contentSha (c : List Char) : List Char := '#' :: c

/-- Replace or insert a path in the provider's store. -/
def upsertRemote (st : RemoteState) (path : List Char) (f : RemoteFile) : RemoteState :=
  if st.any (fun p => p.1 == path) then
    st.map (fun p => if p.1 == path then (path, f) else p)
  else st ++ [(path, f)]

/-- Remove a path from the provider's store. -/
def removeRemote (st : RemoteState) (path : List Char) : RemoteState :=
  st.filter (fun p => !(p.1 == path))

/-- A write submitted to the provider's content API, with its commit
message and the revision token it carries. -/
inductive RemoteWrite where
  | createOrUpdate (path message content : List Char) (sha : Option (List Char))
  | deleteFile (path message : List Char) (sha : List Char)
deriving DecidableEq

/-- The commit message attached to a write. -/
def writeMessage : RemoteWrite → List Char
  | .createOrUpdate _ message _ _ => message
  | .deleteFile _ message _ => message

/-- Whether a write is a create (no revision token supplied). -/
def isCreate : RemoteWrite → Bool
  | .createOrUpdate _ _ _ none => true
  | _ => false

/-- The provider's semantics of `createOrUpdateFileContents`: without a
token the path must be new; with a token it must match the current
revision, else the call fails (optimistic-concurrency conflict). -/
def applyCreateOrUpdate (st : RemoteState) (path content : List Char)
    (sha : Option (List Char)) : Option RemoteState :=
  match lookupRemote st path, sha with
  | none, none => some (upsertRemote st path ⟨contentSha content, content⟩)
  | none, some _ => none
  | some _, none => none
  | some f, some s =>
    if s = f.sha then some (upsertRemote st path ⟨contentSha content, content⟩)
    else none

/-- The provider's semantics of `deleteFile`: the supplied token must
match the current revision. -/
def applyDelete (st : RemoteState) (path : List Char) (sha : List Char) :
    Option RemoteState :=
  match lookupRemote st path with
  | none => none
  | some f => if sha = f.sha then some (removeRemote st path) else none

/-- The fixed content directory of the gateway. -/
def postsDir : List Char := "src/content/posts/".data

/-- The observable outcome of one route-handler invocation: HTTP status,
error payload, the provider paths read, the writes submitted, and the
provider state afterwards. -/
structure HandlerResult where
  status : Nat
  error : Option (List Char)
  reads : List (List Char)
  writes : List RemoteWrite
  remote : RemoteState
deriving DecidableEq

/-- The `PUT` handler of `[filename]/route.ts`: reject empty content,
encode the front matter, probe the current SHA of the path, then submit
a create-or-update carrying the freshly probed SHA. -/
def putHandler (filename : List Char) (reqContent : Option (List Char)) (fm : Fm)
    (st : RemoteState) : HandlerResult :=
  if reqContent = none ∨ reqContent = some [] then
    ⟨400, some "Content is required".data, [], [], st⟩
  else
    match applyCreateOrUpdate st (postsDir ++ filename) (encodeFM fm (reqContent.getD []))
        ((lookupRemote st (postsDir ++ filename)).map (fun f => f.sha)) with
    | some st2 =>
      ⟨200, none, [postsDir ++ filename],
        [RemoteWrite.createOrUpdate (postsDir ++ filename)
          ("Update post: ".data ++ filename) (encodeFM fm (reqContent.getD []))
          ((lookupRemote st (postsDir ++ filename)).map (fun f => f.sha))], st2⟩
    | none =>
      ⟨500, some "Failed to save post".data, [postsDir ++ filename],
        [RemoteWrite.createOrUpdate (postsDir ++ filename)
          ("Update post: ".data ++ filename) (encodeFM fm (reqContent.getD []))
          ((lookupRemote st (postsDir ++ filename)).map (fun f => f.sha))], st⟩

/-- The `DELETE` handler of `[filename]/route.ts`: fetch the current
file to obtain its SHA (failure becomes a 500), then submit the delete
carrying that freshly fetched SHA. -/
def deleteHandler (filename : List Char) (st : RemoteState) : HandlerResult :=
  match lookupRemote st (postsDir ++ filename) with
  | none => ⟨500, some "Failed to delete post".data, [postsDir ++ filename], [], st⟩
  | some f =>
    match applyDelete st (postsDir ++ filename) f.sha with
    | some st2 =>
      ⟨200, none, [postsDir ++ filename],
        [RemoteWrite.deleteFile (postsDir ++ filename)
          ("Delete post: ".data ++ filename) f.sha], st2⟩
    | none =>
      ⟨500, some "Failed to delete post".data, [postsDir ++ filename],
        [RemoteWrite.deleteFile (postsDir ++ filename)
          ("Delete post: ".data ++ filename) f.sha], st⟩

/-- A directory entry returned by the provider's listing call. -/
structure GhFile where
  name : List Char
  path : List Char
  sha : List Char
  size : Nat
deriving DecidableEq

/-- The markdown filter of the `GET` handler:
`files.filter(file => file.name.endsWith('.md') || file.name.endsWith('.mdx'))`. -/
def filterMarkdown (files : List GhFile) : List GhFile :=
  files.filter (fun f => ".md".data.isSuffixOf f.name || ".mdx".data.isSuffixOf f.name)

/-! ## Sync Reconciler (modelled from the spec) -/

/-- A post held in the Local Draft Store. -/
structure LocalPost where
  filename : List Char
  content : List Char
  frontmatter : Fm
  lastModified : List Char
  synced : Bool
  revisionToken : Option (List Char)

/-- A post as a remote listing returns it. -/
structure RemotePost where
  filename : List Char
  content : List Char
  frontmatter : Fm
  sha : List Char

/-- Modelled from the spec: the Sync Reconciler's `pull()` merge
(`src/lib/sync-service.ts` is referenced by the repository's design
documents but is not present in the source tree).  For every remote
post: if absent locally, insert it as synced; if present locally with
`synced = true`, overwrite it with the remote version; if present
locally with `synced = false`, keep the local content and front matter
and only refresh the stored revision token. -/
def pullMerge (store : List LocalPost) (remote : List RemotePost) : List LocalPost :=
  remote.foldl
    (fun acc r =>
      match acc.find? (fun p => p.filename == r.filename) with
      | none =>
        acc ++ [⟨r.filename, r.content, r.frontmatter, [], true, some r.sha⟩]
      | some lp =>
        if lp.synced then
          acc.map (fun p =>
            if p.filename == r.filename then
              ⟨r.filename, r.content, r.frontmatter, p.lastModified, true, some r.sha⟩
            else p)
        else
          acc.map (fun p =>
            if p.filename == r.filename then { p with revisionToken := some r.sha }
            else p))
    store

/-! ## Gateway theorems -/

/-- C8: every write through the Remote Content Gateway carries the audit
message `Update post: <filename>` for an upsert and
`Delete post: <filename>` for a delete, with the post's filename
substituted, as exact stable strings. -/
theorem write_audit_messages (filename : List Char) (reqContent : Option (List Char))
    (fm : Fm) (st : RemoteState) :
    ((putHandler filename reqContent fm st).writes.all
      (fun w => writeMessage w == "Update post: ".data ++ filename)) = true ∧
    ((deleteHandler filename st).writes.all
      (fun w => writeMessage w == "Delete post: ".data ++ filename)) = true := by
  constructor
  · unfold putHandler
    split
    · rfl
    · dsimp only
      split <;> simp [writeMessage]
  · unfold deleteHandler
    split
    · rfl
    · dsimp only
      split <;> simp [writeMessage]

/-- C9: `listPosts` keeps exactly the directory entries whose filename
ends in `.md` or `.mdx`; every other entry is excluded. -/
theorem listPosts_markdown_filter (files : List GhFile) (f : GhFile) :
    f ∈ filterMarkdown files ↔
      f ∈ files ∧
        ((".md".data.isSuffixOf f.name) = true ∨ (".mdx".data.isSuffixOf f.name) = true) := by
  unfold filterMarkdown
  rw [List.mem_filter, Bool.or_eq_true]

/-- C10: an upsert whose content is missing or empty is rejected with
HTTP 400 and the message `Content is required`, before any remote read
or write, leaving the provider state untouched. -/
theorem put_empty_content_rejected (filename : List Char) (fm : Fm) (st : RemoteState) :
    putHandler filename none fm st =
      ⟨400, some "Content is required".data, [], [], st⟩ ∧
    putHandler filename (some []) fm st =
      ⟨400, some "Content is required".data, [], [], st⟩ := by
  constructor <;> rfl

/-- A remote state holding one post at `src/content/posts/a.md` whose
current revision token is `newsha`. -/
def stEx : RemoteState :=
  [(postsDir ++ "a.md".data, ⟨"newsha".data, "OLD".data⟩)]

/-- C1 counterexample: deleting a post whose stored revision token
(`oldsha`) is stale does not return Conflict — the handler never sends
the stored token; it succeeds with 200 and the remote file is removed. -/
theorem delete_stale_token_succeeds_cex :
    ("oldsha".data : List Char) ≠ "newsha".data ∧
    (deleteHandler "a.md".data stEx).status = 200 ∧
    (deleteHandler "a.md".data stEx).error = none ∧
    (deleteHandler "a.md".data stEx).remote = [] := by decide

/-- C1 amended: the delete handler ignores any locally stored revision
token; it fetches the provider's current token immediately before the
write and supplies that fresh token, so the delete of a remotely
existing post always succeeds and removes the remote file. -/
theorem delete_uses_fresh_sha (filename : List Char) (st : RemoteState) (f : RemoteFile)
    (h : lookupRemote st (postsDir ++ filename) = some f) :
    deleteHandler filename st =
      ⟨200, none, [postsDir ++ filename],
        [.deleteFile (postsDir ++ filename) ("Delete post: ".data ++ filename) f.sha],
        removeRemote st (postsDir ++ filename)⟩ := by
  unfold deleteHandler applyDelete
  rw [h]
  simp

/-- Witness for `delete_uses_fresh_sha` at the concrete state `stEx`. -/
theorem delete_uses_fresh_sha_witness :
    deleteHandler "a.md".data stEx =
      ⟨200, none, [postsDir ++ "a.md".data],
        [.deleteFile (postsDir ++ "a.md".data) ("Delete post: ".data ++ "a.md".data)
          "newsha".data],
        removeRemote stEx (postsDir ++ "a.md".data)⟩ :=
  delete_uses_fresh_sha "a.md".data stEx ⟨"newsha".data, "OLD".data⟩ (by decide)

/-- C5 counterexample: a purely local post (the request carries no
revision token at all) whose filename already exists remotely is
submitted as an update of the existing remote file — the write carries
the provider's current token `newsha`, not the absent token of a
create. -/
theorem upsert_without_token_updates_cex :
    (putHandler "a.md".data (some "New".data) [] stEx).writes =
      [.createOrUpdate (postsDir ++ "a.md".data) ("Update post: ".data ++ "a.md".data)
        "New".data (some "newsha".data)] ∧
    ((putHandler "a.md".data (some "New".data) [] stEx).writes.all isCreate) = false := by
  decide

/-- C5 amended: the gateway decides create versus update by probing the
provider, not by the local post's revision token: when the path is
absent remotely the write is submitted as a create (no token), and when
it exists the write is an update carrying the freshly fetched current
token. -/
theorem upsert_create_iff_remote_absent (filename content : List Char) (fm : Fm)
    (st : RemoteState) (hc : content ≠ []) :
    (lookupRemote st (postsDir ++ filename) = none →
      (putHandler filename (some content) fm st).writes =
        [.createOrUpdate (postsDir ++ filename) ("Update post: ".data ++ filename)
          (encodeFM fm content) none]) ∧
    (∀ f, lookupRemote st (postsDir ++ filename) = some f →
      (putHandler filename (some content) fm st).writes =
        [.createOrUpdate (postsDir ++ filename) ("Update post: ".data ++ filename)
          (encodeFM fm content) (some f.sha)]) := by
  have hne : ¬(some content = none ∨ some content = some ([] : List Char)) := by
    simp [hc]
  constructor
  · intro h
    unfold putHandler
    rw [if_neg hne]
    dsimp only [Option.getD]
    rw [h]
    split <;> rfl
  · intro f h
    unfold putHandler
    rw [if_neg hne]
    dsimp only [Option.getD]
    rw [h]
    split <;> rfl

/-- Witness for `upsert_create_iff_remote_absent`: at the concrete state
`stEx` the path exists, so the write carries the fresh token `newsha`. -/
theorem upsert_create_iff_remote_absent_witness :
    (putHandler "a.md".data (some "New".data) [] stEx).writes =
      [.createOrUpdate (postsDir ++ "a.md".data) ("Update post: ".data ++ "a.md".data)
        (encodeFM [] "New".data) (some "newsha".data)] :=
  (upsert_create_iff_remote_absent "a.md".data "New".data [] stEx (by decide)).2
    ⟨"newsha".data, "OLD".data⟩ (by decide)

/-! ## Encode format (C6) and pull precedence (C7) -/

/-- The line format the specification prescribes for one front-matter
entry: an array value becomes a bracketed comma-separated list with
every element double-quoted; every other value is emitted double-quoted
regardless of original quoting style. -/
def renderEntrySpec (kv : List Char × Jv) : List Char :=
  match kv.2 with
  | .arr es =>
    kv.1 ++ ':' :: ' ' :: '[' ::
      (joinSep (',' :: [' ']) (es.map (fun e => '"' :: (jsToString e ++ ['"']))) ++ [']'])
  | v => kv.1 ++ ':' :: ' ' :: '"' :: (jsToString v ++ ['"'])

/-- Each emitted header line agrees with the format the specification
prescribes. -/
theorem renderEntry_eq_spec (kv : List Char × Jv) :
    renderEntry kv = renderEntrySpec kv := by
  unfold renderEntry renderEntrySpec
  match kv with
  | (k, .null) => simp
  | (k, .bool b) => simp
  | (k, .num lexeme) => simp
  | (k, .str s) => simp
  | (k, .arr es) => simp
  | (k, .obj fields) => simp

/-- C6: encode emits arrays as a bracketed list of double-quoted
elements and scalars double-quoted; empty front matter produces no
header block at all, so encoding with empty front matter returns the
body unchanged. -/
theorem encode_format_spec :
    (∀ body, encodeFM [] body = body) ∧
    (∀ kv rest body,
      encodeFM (kv :: rest) body =
        "---\n".data ++ joinSep ['\n'] ((kv :: rest).map renderEntrySpec) ++
          "\n---\n\n".data ++ body) := by
  constructor
  · intro body
    rfl
  · intro kv rest body
    unfold encodeFM
    rw [if_neg (by simp)]
    have h : (kv :: rest).map renderEntry = (kv :: rest).map renderEntrySpec :=
      List.map_congr_left (fun x _ => renderEntry_eq_spec x)
    rw [h]

/-- `find?` looks in the left part of an append first. -/
theorem find?_append_left {α : Type} {p : α → Bool} {l l2 : List α} {q : α}
    (h : List.find? p l = some q) : List.find? p (l ++ l2) = some q := by
  rw [List.find?_append, h]
  rfl

/-- `find?` by filename commutes with mapping a filename-preserving
update over the store. -/
theorem find?_map_filename (g : LocalPost → LocalPost)
    (hg : ∀ x, (g x).filename = x.filename) (n : List Char) :
    ∀ l : List LocalPost,
      List.find? (fun x => x.filename == n) (l.map g) =
        (List.find? (fun x => x.filename == n) l).map g := by
  intro l
  induction l with
  | nil => rfl
  | cons x xs ih =>
    rw [List.map_cons]
    by_cases hx : (x.filename == n) = true
    · rw [@List.find?_cons_of_pos _ (fun y => y.filename == n) (g x) (xs.map g)
        (by show ((g x).filename == n) = true; rw [hg x]; exact hx),
        @List.find?_cons_of_pos _ (fun y => y.filename == n) x xs hx]
      rfl
    · rw [@List.find?_cons_of_neg _ (fun y => y.filename == n) (g x) (xs.map g)
        (by show ¬((g x).filename == n) = true; rw [hg x]; exact hx),
        @List.find?_cons_of_neg _ (fun y => y.filename == n) x xs hx, ih]

/-- With unique filenames, `find?` by a member's filename returns that
member. -/
theorem find?_self_of_nodup :
    ∀ (store : List LocalPost) (p : LocalPost), p ∈ store →
      (store.map (fun x => x.filename)).Nodup →
      List.find? (fun x => x.filename == p.filename) store = some p := by
  intro store
  induction store with
  | nil => intro p hp; cases hp
  | cons x xs ih =>
    intro p hp hnd
    rcases List.mem_cons.mp hp with h | h
    · subst h
      exact List.find?_cons_of_pos _ (by simp)
    · have hx : ¬(x.filename == p.filename) = true := by
        intro hbeq
        have hxp : x.filename = p.filename := beq_iff_eq.mp hbeq
        have : p.filename ∈ xs.map (fun x => x.filename) :=
          List.mem_map.mpr ⟨p, h, rfl⟩
        rw [List.map_cons, List.nodup_cons] at hnd
        exact hnd.1 (hxp ▸ this)
      rw [@List.find?_cons_of_neg _ (fun y => y.filename == p.filename) x xs hx]
      rw [List.map_cons, List.nodup_cons] at hnd
      exact ih p h hnd.2

/-- The pull fold preserves a dirty local post's content, front matter
and dirty flag. -/
theorem pullMerge_invariant (p : LocalPost) :
    ∀ (remote : List RemotePost) (acc : List LocalPost) (q : LocalPost),
      List.find? (fun x => x.filename == p.filename) acc = some q →
      q.content = p.content → q.frontmatter = p.frontmatter → q.synced = false →
      ∃ q2, List.find? (fun x => x.filename == p.filename) (pullMerge acc remote) = some q2 ∧
        q2.content = p.content ∧ q2.frontmatter = p.frontmatter ∧ q2.synced = false := by
  intro remote
  induction remote with
  | nil =>
    intro acc q hfind hc hf hs
    exact ⟨q, hfind, hc, hf, hs⟩
  | cons r rs ih =>
    intro acc q hfind hc hf hs
    have hqfn := List.find?_some hfind
    have hqfn2 : q.filename = p.filename := beq_iff_eq.mp hqfn
    show ∃ q2, List.find? _ (pullMerge (match acc.find? (fun x => x.filename == r.filename) with
      | none => acc ++ [⟨r.filename, r.content, r.frontmatter, [], true, some r.sha⟩]
      | some lp =>
        if lp.synced then
          acc.map (fun x =>
            if x.filename == r.filename then
              ⟨r.filename, r.content, r.frontmatter, x.lastModified, true, some r.sha⟩
            else x)
        else
          acc.map (fun x =>
            if x.filename == r.filename then { x with revisionToken := some r.sha }
            else x)) rs) = some q2 ∧ _
    by_cases hr : r.filename = p.filename
    · rw [hr]
      rw [hfind]
      dsimp only
      rw [if_neg (by rw [hs]; exact Bool.false_ne_true)]
      apply ih
      · rw [find?_map_filename]
        · rw [hfind]
          show some (if (q.filename == p.filename) = true then _ else q) = _
          rw [if_pos hqfn]
        · intro x
          by_cases hx : (x.filename == p.filename) = true
          · rw [if_pos hx]
          · rw [if_neg hx]
      · exact hc
      · exact hf
      · exact hs
    · cases hacc : acc.find? (fun x => x.filename == r.filename) with
      | none =>
        apply ih
        · exact find?_append_left hfind
        · exact hc
        · exact hf
        · exact hs
      | some lp =>
        have hgq : ∀ (upd : LocalPost → LocalPost),
            (if (q.filename == r.filename) = true then upd q else q) = q := by
          intro upd
          rw [if_neg]
          intro hbeq
          exact hr ((beq_iff_eq.mp hbeq).symm.trans hqfn2)
        by_cases hsy : lp.synced = true
        · dsimp only
          rw [if_pos hsy]
          apply ih
          · rw [find?_map_filename]
            · rw [hfind]
              show some (if (q.filename == r.filename) = true then _ else q) = _
              rw [hgq (fun x => ⟨r.filename, r.content, r.frontmatter, x.lastModified,
                true, some r.sha⟩)]
            · intro x
              by_cases hx : (x.filename == r.filename) = true
              · show (if (x.filename == r.filename) = true then _ else x).filename = _
                rw [if_pos hx]
                exact (beq_iff_eq.mp hx).symm
              · show (if (x.filename == r.filename) = true then _ else x).filename = _
                rw [if_neg hx]
          · exact hc
          · exact hf
          · exact hs
        · dsimp only
          rw [if_neg hsy]
          apply ih
          · rw [find?_map_filename]
            · rw [hfind]
              show some (if (q.filename == r.filename) = true then _ else q) = _
              rw [hgq (fun x => { x with revisionToken := some r.sha })]
            · intro x
              by_cases hx : (x.filename == r.filename) = true
              · show (if (x.filename == r.filename) = true then _ else x).filename = _
                rw [if_pos hx]
              · show (if (x.filename == r.filename) = true then _ else x).filename = _
                rw [if_neg hx]
          · exact hc
          · exact hf
          · exact hs

/-- C7 (spec-modelled): a pull never overwrites a dirty post — for every
post with `synced = false`, whatever content the remote listing returns
for that filename, the Draft Store afterwards still holds the local
content and front matter, still marked unsynced. -/
theorem pull_keeps_dirty_local (store : List LocalPost) (remote : List RemotePost)
    (p : LocalPost) (hmem : p ∈ store) (hdirty : p.synced = false)
    (hnodup : (store.map (fun x => x.filename)).Nodup) :
    ∃ q, List.find? (fun x => x.filename == p.filename) (pullMerge store remote) = some q ∧
      q.content = p.content ∧ q.frontmatter = p.frontmatter ∧ q.synced = false :=
  pullMerge_invariant p remote store p
    (find?_self_of_nodup store p hmem hnodup) rfl rfl hdirty

/-- A dirty local post for the C7 witness. -/
def pEx : LocalPost :=
  ⟨"a.md".data, "Hello".data, [("title".data, .str "A".data)], [], false, none⟩

/-- Witness for `pull_keeps_dirty_local`: a pull whose remote listing
returns different content for `a.md` leaves the local content `Hello`
and front matter in place. -/
theorem pull_keeps_dirty_local_witness :
    ∃ q, List.find? (fun x => x.filename == pEx.filename)
        (pullMerge [pEx] [⟨"a.md".data, "REMOTE".data, [], "sha1".data⟩]) = some q ∧
      q.content = pEx.content ∧ q.frontmatter = pEx.frontmatter ∧ q.synced = false :=
  pull_keeps_dirty_local [pEx] [⟨"a.md".data, "REMOTE".data, [], "sha1".data⟩] pEx
    (List.mem_singleton.mpr rfl) rfl (by simp)

/-! ## C4: malformed front matter degrades to empty front matter -/

/-- A well-formed leading front-matter block in the sense of the
specification: an opening delimiter line, header text, and a closing
delimiter line, with the rest of the input following. -/
def hasLeadingFrontMatterBlock (cs : List Char) : Prop :=
  ∃ header rest, cs = fmOpen ++ (header ++ (fmClose ++ rest))

/-- A successful `splitOnFirst` is a decomposition of its input. -/
theorem splitOnFirst_eq_some (pat : List Char) :
    ∀ (cs a b : List Char), splitOnFirst pat cs = some (a, b) →
      cs = a ++ (pat ++ b) := by
  intro cs
  induction cs with
  | nil => intro a b h; exact absurd h (by simp [splitOnFirst])
  | cons c r ih =>
    intro a b h
    unfold splitOnFirst at h
    by_cases hp : pat.isPrefixOf (c :: r) = true
    · rw [if_pos hp] at h
      obtain ⟨t, ht⟩ := List.isPrefixOf_iff_prefix.mp hp
      injection h with h1
      injection h1 with ha hb
      subst ha
      rw [List.nil_append]
      rw [← ht] at hb ⊢
      rw [← hb]
      rw [List.drop_left]
    · rw [if_neg hp] at h
      cases hrec : splitOnFirst pat r with
      | none => rw [hrec] at h; exact absurd h (by simp)
      | some p =>
        rw [hrec] at h
        injection h with h1
        injection h1 with ha hb
        subst hb
        have := ih p.1 p.2 (by rw [hrec])
        rw [← ha, this, List.cons_append]

/-- C4: every input without a well-formed leading front-matter block
decodes to empty front matter with the entire raw input unchanged as the
body (and decoding is a total function, so it never raises). -/
theorem decode_no_block_keeps_raw (raw : List Char)
    (h : ¬hasLeadingFrontMatterBlock raw) :
    decodeContent raw = ([], raw) := by
  unfold decodeContent
  cases hex : extractFrontMatter raw with
  | none => rfl
  | some p =>
    exfalso
    apply h
    unfold extractFrontMatter at hex
    by_cases hp : fmOpen.isPrefixOf raw = true
    · rw [if_pos hp] at hex
      obtain ⟨t, ht⟩ := List.isPrefixOf_iff_prefix.mp hp
      have hdrop : raw.drop 4 = t := by
        rw [← ht]
        exact List.drop_left fmOpen t
      rw [hdrop] at hex
      refine ⟨p.1, p.2, ?_⟩
      rw [← ht, splitOnFirst_eq_some fmClose t p.1 p.2 (by rw [hex])]
    · rw [if_neg hp] at hex
      exact absurd hex (by simp)

/-- Witness for `decode_no_block_keeps_raw`: plain text with no leading
delimiter decodes to itself with empty front matter. -/
theorem decode_no_block_keeps_raw_witness :
    decodeContent "Hello, world".data = ([], "Hello, world".data) :=
  decode_no_block_keeps_raw "Hello, world".data
    (fun ⟨h, r, heq⟩ => by
      have hpre : fmOpen.isPrefixOf "Hello, world".data = true := by
        rw [heq]
        exact List.isPrefixOf_iff_prefix.mpr (List.prefix_append fmOpen _)
      exact absurd hpre (by decide))

/-! ## C3: the per-line behaviour of decode -/

/-- The value pipeline exactly as the specification words it: strip a
single layer of matching surrounding quote characters; if the value then
starts with `[` and ends with `]`, attempt a strict-JSON array parse,
keeping the raw string value when that parse fails. -/
def specValuePipeline (v : List Char) : Jv :=
  let unquoted :=
    if (v.head? = some '"' ∧ v.getLast? = some '"')
        ∨ (v.head? = some '\'' ∧ v.getLast? = some '\'') then
      (v.drop 1).dropLast
    else v
  if unquoted.head? = some '[' ∧ unquoted.getLast? = some ']' then
    match jsonParse unquoted with
    | some j => j
    | none => .str unquoted
  else .str unquoted

/-- The code's quote-strip-then-array-attempt steps coincide with the
pipeline the specification describes. -/
theorem specValuePipeline_eq (v : List Char) :
    jsValue (stripQuotes v) = specValuePipeline v := rfl

/-- Splitting at the first `:` of `pre ++ ':' :: post` returns exactly
`(pre, post)` when `pre` is colon-free. -/
theorem splitFirstChar_colon (post : List Char) :
    ∀ pre : List Char, ':' ∉ pre →
      splitFirstChar ':' (pre ++ ':' :: post) = some (pre, post) := by
  intro pre
  induction pre with
  | nil => intro _; simp [splitFirstChar]
  | cons c cr ih =>
    intro hnc
    have hc : ¬c = ':' := fun hh => hnc (hh ▸ List.mem_cons_self c cr)
    rw [List.cons_append]
    unfold splitFirstChar
    rw [if_neg hc, ih (fun hm => hnc (List.mem_cons_of_mem c hm))]
    rfl

/-- C3: for every line of the header block, decode skips blank lines and
lines starting with `#`, and otherwise splits the line on its first `:`,
trims whitespace from key and value, strips one layer of matching
surrounding quotes, and attempts a strict-JSON array parse on a
bracketed value, keeping the raw string when that parse fails (the
pipeline is a total function, so no input line can raise). -/
theorem decode_per_line (line pre post : List Char) :
    ((trimChars line = [] ∨ (trimChars line).head? = some '#') →
      parseLine line = none) ∧
    ((trimChars line).head? ≠ some '#' →
      trimChars line = pre ++ ':' :: post → ':' ∉ pre → pre ≠ [] →
      parseLine line = some (trimChars pre, specValuePipeline (trimChars post))) := by
  constructor
  · intro h
    unfold parseLine
    by_cases hb : trimChars line = []
    · rw [if_pos hb]
    · rw [if_neg hb]
      rcases h with h | h
      · exact absurd h hb
      · rw [if_pos h]
  · intro hhash hsplit hnc hne
    unfold parseLine
    rw [if_neg (by rw [hsplit]; intro hcontra; simp at hcontra)]
    rw [if_neg hhash]
    rw [hsplit, splitFirstChar_colon post pre hnc]
    show (if pre = [] then none else _) = _
    rw [if_neg hne, specValuePipeline_eq]

/-- Witness for `decode_per_line` on the line `tags: ["x", "y"]`. -/
theorem decode_per_line_witness :
    parseLine "tags: [\"x\", \"y\"]".data =
      some (trimChars "tags".data,
        specValuePipeline (trimChars " [\"x\", \"y\"]".data)) :=
  (decode_per_line "tags: [\"x\", \"y\"]".data "tags".data " [\"x\", \"y\"]".data).2
    (by decide) (by decide) (by decide) (by decide)

/-! ## C2: round trip on the codec's output space -/

/-- A character that survives a JSON string literal unescaped: not a
quote, not a backslash, not a control character. -/
def plainChar (c : Char) : Bool := !(c = '"') && !(c = '\\') && !(c.toNat < 32)

/-- A key in the codec's output space: non-empty, no interior colon or
newline, not a comment starter, and with non-whitespace first and last
characters (as `parseSimpleYaml` produces after trimming). -/
def keyOkB (k : List Char) : Bool :=
  (match k.head? with
   | some c => !(isWs c) && !(c = '#')
   | none => false) &&
  (match k.getLast? with
   | some c => !(isWs c)
   | none => false) &&
  !(k.contains ':') && !(k.contains '\n')

/-- A scalar value in the codec's output space: a single header line's
worth of text (no newline) that is not itself a parseable bracketed
array — exactly what decode stores as a plain string. -/
def scalarOkB (s : List Char) : Bool :=
  !(s.contains '\n') &&
  !(decide (s.head? = some '[') && decide (s.getLast? = some ']') && (jsonParse s).isSome)

/-- An array element in the codec's output space restricted to plain
characters. -/
def elemPlainB : Jv → Bool
  | .str s => s.all plainChar
  | _ => false

/-- A front-matter value in the codec's output space: a plain-string
scalar or an array of plain strings. -/
def valOkB : Jv → Bool
  | .str s => scalarOkB s
  | .arr es => es.all elemPlainB
  | _ => false

/-- Dropping leading whitespace does nothing when the head is not
whitespace. -/
theorem dropWhile_isWs_eq_self (l : List Char) (c : Char) (hhd : l.head? = some c)
    (hc : isWs c = false) : l.dropWhile isWs = l := by
  cases l with
  | nil => rfl
  | cons x r =>
    injection hhd with hx
    subst hx
    rw [List.dropWhile_cons, if_neg (by rw [hc]; exact Bool.false_ne_true)]

/-- Trimming does nothing when both ends are non-whitespace. -/
theorem trimChars_eq_self (l : List Char) (a b : Char) (hhd : l.head? = some a)
    (ha : isWs a = false) (hlast : l.getLast? = some b) (hb : isWs b = false) :
    trimChars l = l := by
  unfold trimChars
  rw [dropWhile_isWs_eq_self l a hhd ha,
    dropWhile_isWs_eq_self l.reverse b (by rw [List.head?_reverse]; exact hlast) hb,
    List.reverse_reverse]

/-- Leading JSON whitespace can be peeled off an append. -/
theorem skipWs_append (sp t : List Char) (h : sp.all jws = true) :
    skipWs (sp ++ t) = skipWs t := by
  induction sp with
  | nil => rfl
  | cons c r ih =>
    rw [List.all_cons, Bool.and_eq_true] at h
    rw [List.cons_append]
    show List.dropWhile jws (c :: (r ++ t)) = _
    rw [List.dropWhile_cons, if_pos h.1]
    exact ih h.2

/-- `skipWs` does nothing when the head is not JSON whitespace. -/
theorem skipWs_eq_self (l : List Char) (c : Char) (hhd : l.head? = some c)
    (hc : jws c = false) : skipWs l = l := by
  cases l with
  | nil => rfl
  | cons x r =>
    injection hhd with hx
    subst hx
    show List.dropWhile jws (x :: r) = _
    rw [List.dropWhile_cons, if_neg (by rw [hc]; exact Bool.false_ne_true)]

/-- A JSON string literal made of plain characters parses back to
exactly those characters. -/
theorem parseJStr_plain :
    ∀ (s rest : List Char), s.all plainChar = true →
      parseJStr (s ++ ('"' :: rest)) = some (s, rest) := by
  intro s
  induction s with
  | nil =>
    intro rest _
    rw [List.nil_append]
    unfold parseJStr
    rw [if_pos rfl]
  | cons c s2 ih =>
    intro rest hall
    rw [List.all_cons, Bool.and_eq_true] at hall
    have hp := hall.1
    rw [plainChar, Bool.and_eq_true, Bool.and_eq_true] at hp
    obtain ⟨⟨hq0, hbs0⟩, hctl0⟩ := hp
    have hq : ¬c = '"' := by simpa using hq0
    have hbs : ¬c = '\\' := by simpa using hbs0
    have hctl : ¬c.toNat < 32 := by simpa using hctl0
    rw [List.cons_append]
    unfold parseJStr
    rw [if_neg hq, if_neg hbs, if_neg hctl, ih rest hall.2]
    rfl

/-- A quoted rendering of a JSON-value list. -/
def quotedPieces (es : List Jv) : List (List Char) :=
  es.map (fun e => '"' :: (jsToString e ++ ['"']))

/-- The rendered element list is at least as long as the element list. -/
theorem length_joinSep_quoted (es : List Jv) :
    es.length ≤ (joinSep ", ".data (quotedPieces es)).length := by
  induction es with
  | nil => simp [quotedPieces, joinSep]
  | cons e es2 ih =>
    cases es2 with
    | nil => simp [quotedPieces, joinSep]
    | cons e2 es3 =>
      show (e :: e2 :: es3).length ≤
        (('"' :: (jsToString e ++ ['"'])) ++ ", ".data ++
          joinSep ", ".data (quotedPieces (e2 :: es3))).length
      rw [List.length_cons, List.length_append, List.length_append]
      have h2 := ih
      simp only [List.length_cons] at h2 ⊢
      omega

/-- Parsing a quoted plain string after optional leading whitespace
yields the string value. -/
theorem parseJVal_quoted (f : Nat) (sp s rest : List Char)
    (hsp : sp.all jws = true) (hs : s.all plainChar = true) :
    parseJVal (f + 1) (sp ++ ('"' :: (s ++ ('"' :: rest)))) = some (.str s, rest) := by
  unfold parseJVal
  rw [skipWs_append sp _ hsp,
    skipWs_eq_self ('"' :: (s ++ ('"' :: rest))) '"' rfl (by decide)]
  dsimp only
  rw [if_neg (by decide), if_neg (by decide), if_neg (by decide), if_pos rfl,
    parseJStr_plain s rest hs]
  rfl

/-- Parsing the rendered elements of a non-empty plain-string array,
after optional leading whitespace, returns exactly those elements. -/
theorem parseJItems_plain :
    ∀ (es : List Jv) (fuel : Nat) (sp tail : List Char),
      es ≠ [] → es.all elemPlainB = true → es.length < fuel → sp.all jws = true →
      parseJItems fuel
          (sp ++ (joinSep ", ".data (quotedPieces es) ++ (']' :: tail))) =
        some (es, tail) := by
  intro es
  induction es with
  | nil => intro fuel sp tail hne _ _ _; exact absurd rfl hne
  | cons e es2 ih =>
    intro fuel sp tail _ hall hfuel hsp
    rw [List.all_cons, Bool.and_eq_true] at hall
    obtain ⟨s, hs, hsplain⟩ : ∃ s, e = Jv.str s ∧ s.all plainChar = true := by
      cases e with
      | str s => exact ⟨s, rfl, hall.1⟩
      | null => exact absurd hall.1 (by simp [elemPlainB])
      | bool b => exact absurd hall.1 (by simp [elemPlainB])
      | num lx => exact absurd hall.1 (by simp [elemPlainB])
      | arr es0 => exact absurd hall.1 (by simp [elemPlainB])
      | obj fs => exact absurd hall.1 (by simp [elemPlainB])
    subst hs
    obtain ⟨f, rfl⟩ : ∃ f, fuel = f + 1 := by
      cases fuel with
      | zero => omega
      | succ f => exact ⟨f, rfl⟩
    obtain ⟨f2, rfl⟩ : ∃ f2, f = f2 + 1 := by
      cases f with
      | zero => simp at hfuel
      | succ f2 => exact ⟨f2, rfl⟩
    cases es2 with
    | nil =>
      have hshape :
          sp ++ (joinSep ", ".data (quotedPieces [Jv.str s]) ++ (']' :: tail)) =
            sp ++ ('"' :: (s ++ ('"' :: (']' :: tail)))) := by
        show sp ++ (('"' :: (s ++ ['"'])) ++ (']' :: tail)) = _
        simp [List.append_assoc]
      rw [hshape]
      unfold parseJItems
      rw [parseJVal_quoted f2 sp s (']' :: tail) hsp hsplain]
      dsimp only
      rw [skipWs_eq_self (']' :: tail) ']' rfl (by decide)]
      dsimp only
      rw [if_pos rfl]
    | cons e2 es3 =>
      have hshape :
          sp ++ (joinSep ", ".data (quotedPieces (Jv.str s :: e2 :: es3)) ++ (']' :: tail)) =
            sp ++ ('"' :: (s ++ ('"' :: (',' :: (' ' ::
              (joinSep ", ".data (quotedPieces (e2 :: es3)) ++ (']' :: tail))))))) := by
        show sp ++ ((('"' :: (s ++ ['"'])) ++ ", ".data ++
          joinSep ", ".data (quotedPieces (e2 :: es3))) ++ (']' :: tail)) = _
        simp [List.append_assoc]
      rw [hshape]
      unfold parseJItems
      rw [parseJVal_quoted f2 sp s
        (',' :: (' ' :: (joinSep ", ".data (quotedPieces (e2 :: es3)) ++ (']' :: tail))))
        hsp hsplain]
      dsimp only
      rw [skipWs_eq_self
        (',' :: (' ' :: (joinSep ", ".data (quotedPieces (e2 :: es3)) ++ (']' :: tail))))
        ',' rfl (by decide)]
      dsimp only
      rw [if_neg (by decide), if_pos rfl]
      have hrec := ih (f2 + 1) [' '] tail (by simp) hall.2
        (by simp only [List.length_cons] at hfuel ⊢; omega) (by decide)
      rw [List.singleton_append] at hrec
      rw [hrec]

/-- The bracketed rendering of a plain-string array parses back to
exactly that array. -/
theorem jsonParse_renderArr (es : List Jv) (hall : es.all elemPlainB = true) :
    jsonParse ('[' :: (joinSep ", ".data (quotedPieces es) ++ [']'])) =
      some (.arr es) := by
  cases es with
  | nil =>
    show jsonParse ('[' :: ([] ++ [']'])) = _
    decide
  | cons e es2 =>
    have hall2 := hall
    rw [List.all_cons, Bool.and_eq_true] at hall2
    obtain ⟨s, hs, hsplain⟩ : ∃ s, e = Jv.str s ∧ s.all plainChar = true := by
      cases e with
      | str s => exact ⟨s, rfl, hall2.1⟩
      | null => exact absurd hall2.1 (by simp [elemPlainB])
      | bool b => exact absurd hall2.1 (by simp [elemPlainB])
      | num lx => exact absurd hall2.1 (by simp [elemPlainB])
      | arr es0 => exact absurd hall2.1 (by simp [elemPlainB])
      | obj fs => exact absurd hall2.1 (by simp [elemPlainB])
    subst hs
    obtain ⟨J2, hJ⟩ : ∃ J2,
        joinSep ", ".data (quotedPieces (Jv.str s :: es2)) = '"' :: J2 := by
      cases es2 with
      | nil => exact ⟨s ++ ['"'], rfl⟩
      | cons e2 es3 =>
        refine ⟨(s ++ ['"']) ++ (", ".data ++
          joinSep ", ".data (quotedPieces (e2 :: es3))), ?_⟩
        show ('"' :: (s ++ ['"'])) ++ ", ".data ++
          joinSep ", ".data (quotedPieces (e2 :: es3)) = _
        simp [List.cons_append, List.append_assoc]
    have hlenJ : (Jv.str s :: es2).length < ('[' :: (('"' :: J2) ++ [']'])).length := by
      have h1 := length_joinSep_quoted (Jv.str s :: es2)
      rw [hJ] at h1
      simp only [List.length_cons, List.length_append, List.length_nil] at h1 ⊢
      omega
    have hitems := parseJItems_plain (Jv.str s :: es2)
      (('[' :: (('"' :: J2) ++ [']'])).length) [] [] (by simp) hall hlenJ (by decide)
    rw [List.nil_append, hJ] at hitems
    unfold jsonParse
    rw [hJ]
    unfold parseJVal
    rw [skipWs_eq_self ('[' :: (('"' :: J2) ++ [']'])) '[' rfl (by decide)]
    dsimp only
    rw [if_neg (by decide), if_neg (by decide), if_neg (by decide), if_neg (by decide),
      if_pos rfl]
    rw [show (('"' :: J2) ++ [']'] : List Char) = '"' :: (J2 ++ [']']) from rfl]
    rw [skipWs_eq_self ('"' :: (J2 ++ [']'])) '"' rfl (by decide)]
    dsimp only
    rw [if_neg (by decide)]
    rw [show ('"' :: J2) ++ (']' :: ([] : List Char)) = '"' :: (J2 ++ [']']) from rfl] at hitems
    rw [hitems]
    rfl

/-- Parsing a rendered line of shape `key: <m>...<lastc>` recovers the
key and hands the value text to the quote-strip and array-attempt
pipeline. -/
theorem parseLine_render_generic (k mid : List Char) (m lastc : Char)
    (hk : keyOkB k = true) (hm : isWs m = false) (hlc : isWs lastc = false) :
    parseLine (k ++ (':' :: (' ' :: (m :: (mid ++ [lastc]))))) =
      some (k, jsValue (stripQuotes (m :: (mid ++ [lastc])))) := by
  cases k with
  | nil => exact absurd hk (by decide)
  | cons a k2 =>
    rw [keyOkB, Bool.and_eq_true, Bool.and_eq_true, Bool.and_eq_true] at hk
    obtain ⟨⟨⟨hhd, hlst⟩, hcol⟩, _⟩ := hk
    rw [List.head?_cons] at hhd
    rw [Bool.and_eq_true] at hhd
    have hwa : isWs a = false := by simpa using hhd.1
    have hha : ¬a = '#' := by simpa using hhd.2
    obtain ⟨b2, hgl, hwb⟩ : ∃ b2, (a :: k2).getLast? = some b2 ∧ isWs b2 = false := by
      cases hgl0 : (a :: k2).getLast? with
      | none => rw [hgl0] at hlst; exact absurd hlst (by decide)
      | some b2 =>
        rw [hgl0] at hlst
        exact ⟨b2, rfl, by simpa using hlst⟩
    have hc2 : ':' ∉ a :: k2 := by simpa using hcol
    have hshape : (a :: k2) ++ (':' :: (' ' :: (m :: (mid ++ [lastc])))) =
        ((a :: k2) ++ (':' :: (' ' :: (m :: mid)))) ++ [lastc] := by
      simp [List.append_assoc]
    have hhead : ((a :: k2) ++ (':' :: (' ' :: (m :: (mid ++ [lastc]))))).head? = some a := by
      rw [List.cons_append]
      rfl
    have htrim : trimChars ((a :: k2) ++ (':' :: (' ' :: (m :: (mid ++ [lastc]))))) =
        (a :: k2) ++ (':' :: (' ' :: (m :: (mid ++ [lastc])))) := by
      refine trimChars_eq_self _ a lastc hhead hwa ?_ hlc
      rw [hshape, List.getLast?_concat]
    have htrimk : trimChars (a :: k2) = a :: k2 :=
      trimChars_eq_self _ a b2 rfl hwa hgl hwb
    have htrimv : trimChars (' ' :: (m :: (mid ++ [lastc]))) = m :: (mid ++ [lastc]) := by
      unfold trimChars
      rw [List.dropWhile_cons, if_pos (by decide),
        dropWhile_isWs_eq_self (m :: (mid ++ [lastc])) m rfl hm,
        dropWhile_isWs_eq_self (m :: (mid ++ [lastc])).reverse lastc
          (by rw [List.head?_reverse,
            show (m :: (mid ++ [lastc])) = (m :: mid) ++ [lastc] from rfl,
            List.getLast?_concat]) hlc,
        List.reverse_reverse]
    unfold parseLine
    rw [htrim]
    rw [if_neg (by rw [List.cons_append]; exact List.cons_ne_nil a _)]
    rw [if_neg (by rw [hhead]; intro hcontra; exact hha (Option.some.inj hcontra))]
    rw [splitFirstChar_colon (' ' :: (m :: (mid ++ [lastc]))) (a :: k2) hc2]
    show (if (a :: k2 : List Char) = [] then none else _) = _
    rw [if_neg (List.cons_ne_nil a k2), htrimk, htrimv]

/-- A rendered scalar line parses back to the same key and scalar. -/
theorem parseLine_render_str (k s : List Char)
    (hk : keyOkB k = true) (hv : valOkB (.str s) = true) :
    parseLine (renderEntry (k, .str s)) = some (k, .str s) := by
  have hshape : renderEntry (k, .str s) =
      k ++ (':' :: (' ' :: ('"' :: (s ++ ['"'])))) := by
    show k ++ ": \"".data ++ s ++ ['"'] = _
    simp [List.append_assoc]
  rw [hshape, parseLine_render_generic k s '"' '"' hk (by decide) (by decide)]
  have hstrip : stripQuotes ('"' :: (s ++ ['"'])) = s := by
    unfold stripQuotes
    rw [if_pos (Or.inl ⟨rfl, by
      rw [show ('"' :: (s ++ ['"']) : List Char) = ('"' :: s) ++ ['"'] from rfl,
        List.getLast?_concat]⟩)]
    show (s ++ ['"']).dropLast = s
    exact List.dropLast_concat
  rw [hstrip]
  rw [valOkB, scalarOkB, Bool.and_eq_true] at hv
  have hno := hv.2
  unfold jsValue
  by_cases hbr : s.head? = some '[' ∧ s.getLast? = some ']'
  · rw [if_pos hbr]
    cases hjp : jsonParse s with
    | none => rfl
    | some j =>
      exfalso
      simp [hbr.1, hbr.2, hjp] at hno
  · rw [if_neg hbr]

/-- A rendered array line parses back to the same key and array. -/
theorem parseLine_render_arr (k : List Char) (es : List Jv)
    (hk : keyOkB k = true) (hv : valOkB (.arr es) = true) :
    parseLine (renderEntry (k, .arr es)) = some (k, .arr es) := by
  have hshape : renderEntry (k, .arr es) =
      k ++ (':' :: (' ' :: ('[' :: (joinSep ", ".data (quotedPieces es) ++ [']'])))) := by
    show k ++ ": [".data ++ joinSep ", ".data (quotedPieces es) ++ [']'] = _
    simp [List.append_assoc]
  rw [hshape, parseLine_render_generic k (joinSep ", ".data (quotedPieces es)) '[' ']'
    hk (by decide) (by decide)]
  have hlast : ('[' :: (joinSep ", ".data (quotedPieces es) ++ [']'])).getLast? =
      some ']' := by
    rw [show ('[' :: (joinSep ", ".data (quotedPieces es) ++ [']']) : List Char) =
      ('[' :: joinSep ", ".data (quotedPieces es)) ++ [']'] from rfl,
      List.getLast?_concat]
  have hstrip : stripQuotes ('[' :: (joinSep ", ".data (quotedPieces es) ++ [']'])) =
      '[' :: (joinSep ", ".data (quotedPieces es) ++ [']']) := by
    unfold stripQuotes
    rw [if_neg]
    intro hcontra
    rcases hcontra with ⟨h1, _⟩ | ⟨h1, _⟩ <;> simp at h1
  rw [hstrip]
  unfold jsValue
  rw [if_pos ⟨rfl, hlast⟩, jsonParse_renderArr es (by simpa [valOkB] using hv)]

/-- A rendered line parses back to the same key and value, for every
value in the codec's output space. -/
theorem parseLine_renderEntry (k : List Char) (v : Jv)
    (hk : keyOkB k = true) (hv : valOkB v = true) :
    parseLine (renderEntry (k, v)) = some (k, v) := by
  cases v with
  | str s => exact parseLine_render_str k s hk hv
  | arr es => exact parseLine_render_arr k es hk hv
  | null => exact absurd hv (by simp [valOkB])
  | bool b => exact absurd hv (by simp [valOkB])
  | num lx => exact absurd hv (by simp [valOkB])
  | obj fs => exact absurd hv (by simp [valOkB])

/-- Scanning for the closing delimiter passes over a newline-free
chunk. -/
theorem splitOnFirst_pass (l : List Char) (hnl : '\n' ∉ l) :
    ∀ rest, splitOnFirst fmClose (l ++ rest) =
      (splitOnFirst fmClose rest).map (fun p => (l ++ p.1, p.2)) := by
  induction l with
  | nil =>
    intro rest
    rw [List.nil_append]
    cases splitOnFirst fmClose rest with
    | none => rfl
    | some p => simp
  | cons c l2 ih =>
    intro rest
    have hc : ¬( '\n' = c) := fun hh => hnl (hh ▸ List.mem_cons_self c l2)
    rw [List.cons_append]
    rw [show splitOnFirst fmClose (c :: (l2 ++ rest)) =
        (if fmClose.isPrefixOf (c :: (l2 ++ rest)) = true then
          some ([], (c :: (l2 ++ rest)).drop fmClose.length)
        else (splitOnFirst fmClose (l2 ++ rest)).map (fun p => (c :: p.1, p.2))) from rfl]
    rw [show fmClose.isPrefixOf (c :: (l2 ++ rest)) =
        (('\n' == c) && (['-', '-', '-', '\n'].isPrefixOf (l2 ++ rest))) from rfl,
      beq_eq_false_iff_ne.mpr hc, Bool.false_and]
    rw [if_neg (Bool.false_ne_true), ih (fun hm => hnl (List.mem_cons_of_mem c hm)) rest,
      Option.map_map]
    rfl

/-- The closing delimiter is found at its own occurrence. -/
theorem splitOnFirst_at_close (tl : List Char) :
    splitOnFirst fmClose (fmClose ++ tl) = some ([], tl) := by
  show splitOnFirst fmClose ('\n' :: (['-', '-', '-', '\n'] ++ tl)) = _
  unfold splitOnFirst
  rw [if_pos (List.isPrefixOf_iff_prefix.mpr
    (show fmClose <+: '\n' :: (['-', '-', '-', '\n'] ++ tl) from List.prefix_append fmClose tl))]
  rw [show ('\n' :: (['-', '-', '-', '\n'] ++ tl) : List Char) = fmClose ++ tl from rfl]
  rw [List.drop_left fmClose tl]

/-- A newline followed by a long newline-free line is not an occurrence
of the closing delimiter. -/
theorem not_close_prefix (l2 rest : List Char) (hnl : '\n' ∉ l2) (hlen : 4 ≤ l2.length) :
    fmClose.isPrefixOf ('\n' :: (l2 ++ rest)) = false := by
  rw [show fmClose.isPrefixOf ('\n' :: (l2 ++ rest)) =
      (('\n' == '\n') && (['-', '-', '-', '\n'].isPrefixOf (l2 ++ rest))) from rfl,
    beq_self_eq_true, Bool.true_and]
  cases h : ['-', '-', '-', '\n'].isPrefixOf (l2 ++ rest) with
  | false => rfl
  | true =>
    exfalso
    have hpre := List.isPrefixOf_iff_prefix.mp h
    have htake := List.prefix_iff_eq_take.mp hpre
    have hlen4 : (['-', '-', '-', '\n'] : List Char).length = 4 := rfl
    rw [List.take_append_eq_append_take, hlen4, Nat.sub_eq_zero_of_le hlen, List.take_zero,
      List.append_nil] at htake
    have hmem : '\n' ∈ List.take 4 l2 := by
      rw [← htake]
      simp
    exact hnl (List.take_subset 4 l2 hmem)

/-- Lines that are newline-free and at least four characters long. -/
def safeLine (l : List Char) : Prop := '\n' ∉ l ∧ 4 ≤ l.length

/-- Scanning a joined header followed by the closing delimiter finds the
delimiter exactly at the end of the header. -/
theorem splitOnFirst_header :
    ∀ (lines : List (List Char)) (tl : List Char), lines ≠ [] →
      (∀ l ∈ lines, safeLine l) →
      splitOnFirst fmClose (joinSep ['\n'] lines ++ (fmClose ++ tl)) =
        some (joinSep ['\n'] lines, tl) := by
  intro lines
  induction lines with
  | nil => intro tl hne _; exact absurd rfl hne
  | cons l ls ih =>
    intro tl _ hsafe
    have hl := hsafe l (List.mem_cons_self l ls)
    cases ls with
    | nil =>
      show splitOnFirst fmClose (l ++ (fmClose ++ tl)) = some (l, tl)
      rw [splitOnFirst_pass l hl.1, splitOnFirst_at_close]
      simp
    | cons l2 ls2 =>
      have hl2 := hsafe l2 (List.mem_cons_of_mem l (List.mem_cons_self l2 ls2))
      have hshape : joinSep ['\n'] (l :: l2 :: ls2) ++ (fmClose ++ tl) =
          l ++ ('\n' :: (joinSep ['\n'] (l2 :: ls2) ++ (fmClose ++ tl))) := by
        show (l ++ ['\n'] ++ joinSep ['\n'] (l2 :: ls2)) ++ (fmClose ++ tl) = _
        simp [List.append_assoc]
      rw [hshape, splitOnFirst_pass l hl.1]
      have hJ2 : ∃ z, joinSep ['\n'] (l2 :: ls2) ++ (fmClose ++ tl) = l2 ++ z := by
        cases ls2 with
        | nil => exact ⟨fmClose ++ tl, rfl⟩
        | cons l3 ls3 =>
          refine ⟨['\n'] ++ joinSep ['\n'] (l3 :: ls3) ++ (fmClose ++ tl), ?_⟩
          show (l2 ++ ['\n'] ++ joinSep ['\n'] (l3 :: ls3)) ++ (fmClose ++ tl) = _
          simp [List.append_assoc]
      obtain ⟨z, hz⟩ := hJ2
      show Option.map _ (splitOnFirst fmClose
        ('\n' :: (joinSep ['\n'] (l2 :: ls2) ++ (fmClose ++ tl)))) = _
      unfold splitOnFirst
      rw [show ('\n' :: (joinSep ['\n'] (l2 :: ls2) ++ (fmClose ++ tl))).drop fmClose.length =
        (joinSep ['\n'] (l2 :: ls2) ++ (fmClose ++ tl)).drop 4 from rfl]
      rw [hz, not_close_prefix l2 z hl2.1 hl2.2]
      rw [if_neg (Bool.false_ne_true), ← hz]
      rw [ih tl (List.cons_ne_nil l2 ls2)
        (fun x hx => hsafe x (List.mem_cons_of_mem l hx))]
      show some (l ++ ('\n' :: joinSep ['\n'] (l2 :: ls2)), tl) = _
      have : l ++ ('\n' :: joinSep ['\n'] (l2 :: ls2)) = joinSep ['\n'] (l :: l2 :: ls2) := by
        show _ = (l ++ ['\n'] ++ joinSep ['\n'] (l2 :: ls2))
        simp [List.append_assoc]
      rw [this]

/-- `split('\n')` never returns an empty list of lines. -/
theorem splitLines_ne_nil : ∀ l : List Char, splitLines l ≠ [] := by
  intro l
  induction l with
  | nil => exact List.cons_ne_nil _ _
  | cons c r ih =>
    unfold splitLines
    by_cases hc : c = '\n'
    · rw [if_pos hc]
      exact List.cons_ne_nil _ _
    · rw [if_neg hc]
      cases hs : splitLines r with
      | nil => exact absurd hs ih
      | cons x xs => exact List.cons_ne_nil _ _

/-- A newline-free text is a single line. -/
theorem splitLines_no_newline : ∀ l : List Char, '\n' ∉ l → splitLines l = [l] := by
  intro l
  induction l with
  | nil => intro _; rfl
  | cons c r ih =>
    intro hnl
    have hc : ¬c = '\n' := fun hh => hnl (hh ▸ List.mem_cons_self c r)
    unfold splitLines
    rw [if_neg hc, ih (fun hm => hnl (List.mem_cons_of_mem c hm))]

/-- Splitting at the first newline of a newline-free chunk followed by a
newline peels off that chunk as a line. -/
theorem splitLines_join : ∀ (l rest : List Char), '\n' ∉ l →
    splitLines (l ++ ('\n' :: rest)) = l :: splitLines rest := by
  intro l
  induction l with
  | nil =>
    intro rest _
    rw [List.nil_append]
    rw [show splitLines ('\n' :: rest) =
      (if '\n' = '\n' then [] :: splitLines rest else
        match splitLines rest with
        | l :: ls => ('\n' :: l) :: ls
        | [] => [['\n']]) from rfl]
    rw [if_pos rfl]
  | cons c l2 ih =>
    intro rest hnl
    have hc : ¬c = '\n' := fun hh => hnl (hh ▸ List.mem_cons_self c l2)
    rw [List.cons_append]
    rw [show splitLines (c :: (l2 ++ ('\n' :: rest))) =
      (if c = '\n' then [] :: splitLines (l2 ++ ('\n' :: rest)) else
        match splitLines (l2 ++ ('\n' :: rest)) with
        | l :: ls => (c :: l) :: ls
        | [] => [[c]]) from rfl]
    rw [if_neg hc, ih rest (fun hm => hnl (List.mem_cons_of_mem c hm))]

/-- `split('\n')` inverts joining newline-free lines with newlines. -/
theorem splitLines_joinSep :
    ∀ lines : List (List Char), lines ≠ [] → (∀ l ∈ lines, '\n' ∉ l) →
      splitLines (joinSep ['\n'] lines) = lines := by
  intro lines
  induction lines with
  | nil => intro hne _; exact absurd rfl hne
  | cons l ls ih =>
    intro _ hnl
    cases ls with
    | nil => exact splitLines_no_newline l (hnl l (List.mem_cons_self l []))
    | cons l2 ls2 =>
      have hshape : joinSep ['\n'] (l :: l2 :: ls2) =
          l ++ ('\n' :: joinSep ['\n'] (l2 :: ls2)) := by
        show l ++ ['\n'] ++ joinSep ['\n'] (l2 :: ls2) = _
        simp [List.append_assoc]
      rw [hshape, splitLines_join l _ (hnl l (List.mem_cons_self l _)),
        ih (List.cons_ne_nil l2 ls2) (fun x hx => hnl x (List.mem_cons_of_mem l hx))]

/-- Inserting a fresh key appends it to the record. -/
theorem insertRecord_fresh (acc : Fm) (k : List Char) (v : Jv)
    (h : ∀ p ∈ acc, ¬p.1 = k) : insertRecord acc k v = acc ++ [(k, v)] := by
  unfold insertRecord
  rw [show acc.any (fun p => p.1 == k) = false from
    List.any_eq_false.mpr (fun p hp => by simpa using h p hp)]
  rw [if_neg Bool.false_ne_true]

/-- Folding the line parser over rendered lines with fresh, distinct
keys appends the entries in order. -/
theorem foldl_insert_rendered :
    ∀ (fm : Fm) (acc : Fm),
      (∀ kv ∈ fm, parseLine (renderEntry kv) = some kv) →
      (∀ kv ∈ fm, ∀ p ∈ acc, ¬p.1 = kv.1) →
      (fm.map Prod.fst).Nodup →
      List.foldl (fun acc2 line =>
          match parseLine line with
          | some (k, v) => insertRecord acc2 k v
          | none => acc2) acc (fm.map renderEntry) = acc ++ fm := by
  intro fm
  induction fm with
  | nil =>
    intro acc _ _ _
    rw [List.map_nil, List.foldl_nil, List.append_nil]
  | cons kv fm2 ih =>
    intro acc hparse hfresh hnd
    obtain ⟨k, v⟩ := kv
    rw [List.map_cons, List.foldl_cons,
      hparse (k, v) (List.mem_cons_self _ _)]
    show List.foldl _ (insertRecord acc k v) (fm2.map renderEntry) = _
    rw [insertRecord_fresh acc k v
      (fun p hp => hfresh (k, v) (List.mem_cons_self _ _) p hp)]
    rw [List.map_cons, List.nodup_cons] at hnd
    rw [ih (acc ++ [(k, v)])
      (fun kv2 h2 => hparse kv2 (List.mem_cons_of_mem _ h2))
      (fun kv2 h2 p hp => by
        rcases List.mem_append.mp hp with hpa | hpk
        · exact hfresh kv2 (List.mem_cons_of_mem _ h2) p hpa
        · rw [List.mem_singleton.mp hpk]
          intro hk
          exact hnd.1 (hk ▸ List.mem_map.mpr ⟨kv2, h2, rfl⟩))
      hnd.2]
    simp [List.append_assoc]

/-- A member of a joined list lies in the separator or in a piece. -/
theorem mem_joinSep (sep : List Char) (c : Char) :
    ∀ pieces : List (List Char), c ∈ joinSep sep pieces →
      c ∈ sep ∨ ∃ p ∈ pieces, c ∈ p := by
  intro pieces
  induction pieces with
  | nil => intro h; cases h
  | cons p ps ih =>
    cases ps with
    | nil =>
      intro h
      exact Or.inr ⟨p, List.mem_cons_self p [], h⟩
    | cons p2 ps2 =>
      intro h
      rcases List.mem_append.mp h with h1 | h1
      · rcases List.mem_append.mp h1 with h2 | h2
        · exact Or.inr ⟨p, List.mem_cons_self p _, h2⟩
        · exact Or.inl h2
      · rcases ih h1 with h2 | ⟨q, hq, hcq⟩
        · exact Or.inl h2
        · exact Or.inr ⟨q, List.mem_cons_of_mem p hq, hcq⟩

/-- Rendered lines are newline-free and at least four characters long. -/
theorem renderEntry_safe (k : List Char) (v : Jv)
    (hk : keyOkB k = true) (hv : valOkB v = true) :
    safeLine (renderEntry (k, v)) := by
  have hknl : '\n' ∉ k := by
    rw [keyOkB, Bool.and_eq_true, Bool.and_eq_true, Bool.and_eq_true] at hk
    simpa using hk.2
  cases v with
  | str s =>
    have hsnl : '\n' ∉ s := by
      rw [valOkB, scalarOkB, Bool.and_eq_true] at hv
      simpa using hv.1
    constructor
    · show '\n' ∉ k ++ ": \"".data ++ s ++ ['"']
      intro hm
      rcases List.mem_append.mp hm with hm1 | hm1
      · rcases List.mem_append.mp hm1 with hm2 | hm2
        · rcases List.mem_append.mp hm2 with hm3 | hm3
          · exact hknl hm3
          · simp at hm3
        · exact hsnl hm2
      · simp at hm1
    · show 4 ≤ (k ++ ": \"".data ++ s ++ ['"']).length
      simp only [List.length_append, List.length_cons, List.length_nil]
      omega
  | arr es =>
    have hesnl : '\n' ∉ joinSep ", ".data (quotedPieces es) := by
      intro hm
      rcases mem_joinSep ", ".data '\n' (quotedPieces es) hm with h2 | ⟨q, hq, hcq⟩
      · simp at h2
      · obtain ⟨e, he, rfl⟩ := List.mem_map.mp hq
        have hep : elemPlainB e = true :=
          List.all_eq_true.mp (by simpa [valOkB] using hv) e he
        obtain ⟨s, rfl⟩ : ∃ s, e = Jv.str s := by
          cases e with
          | str s => exact ⟨s, rfl⟩
          | null => exact absurd hep (by simp [elemPlainB])
          | bool b => exact absurd hep (by simp [elemPlainB])
          | num lx => exact absurd hep (by simp [elemPlainB])
          | arr es0 => exact absurd hep (by simp [elemPlainB])
          | obj fs => exact absurd hep (by simp [elemPlainB])
        rcases List.mem_cons.mp hcq with h3 | h3
        · exact absurd h3 (by decide)
        · rcases List.mem_append.mp h3 with h4 | h4
          · have := List.all_eq_true.mp (by simpa [elemPlainB] using hep) '\n' h4
            exact absurd this (by decide)
          · simp at h4
    constructor
    · show '\n' ∉ k ++ ": [".data ++ joinSep ", ".data (quotedPieces es) ++ [']']
      intro hm
      rcases List.mem_append.mp hm with hm1 | hm1
      · rcases List.mem_append.mp hm1 with hm2 | hm2
        · rcases List.mem_append.mp hm2 with hm3 | hm3
          · exact hknl hm3
          · simp at hm3
        · exact hesnl hm2
      · simp at hm1
    · show 4 ≤ (k ++ ": [".data ++ joinSep ", ".data (quotedPieces es) ++ [']']).length
      simp only [List.length_append, List.length_cons, List.length_nil]
      omega
  | null => exact absurd hv (by simp [valOkB])
  | bool b => exact absurd hv (by simp [valOkB])
  | num lx => exact absurd hv (by simp [valOkB])
  | obj fs => exact absurd hv (by simp [valOkB])

/-- C2 amended: on the codec's output space the front matter
round-trips exactly, while the body comes back with one extra leading
newline (the blank line the encoder emits after the closing
delimiter). -/
theorem decode_encode_roundtrip (fm : Fm) (body : List Char)
    (hne : fm ≠ [])
    (hkeys : ∀ kv ∈ fm, keyOkB kv.1 = true)
    (hvals : ∀ kv ∈ fm, valOkB kv.2 = true)
    (hnd : (fm.map Prod.fst).Nodup) :
    decodeContent (encodeFM fm body) = (fm, '\n' :: body) := by
  have hsafe : ∀ l ∈ fm.map renderEntry, safeLine l := by
    intro l hl
    obtain ⟨kv, hkv, rfl⟩ := List.mem_map.mp hl
    exact renderEntry_safe kv.1 kv.2 (hkeys kv hkv) (hvals kv hkv)
  have hmapne : fm.map renderEntry ≠ [] := by
    intro hcontra
    exact hne (List.map_eq_nil_iff.mp hcontra)
  have henc : encodeFM fm body =
      fmOpen ++ (joinSep ['\n'] (fm.map renderEntry) ++ (fmClose ++ ('\n' :: body))) := by
    unfold encodeFM
    rw [if_neg hne]
    show "---\n".data ++ joinSep ['\n'] (fm.map renderEntry) ++ "\n---\n\n".data ++ body = _
    have h1 : ("\n---\n\n".data : List Char) ++ body = fmClose ++ ('\n' :: body) := rfl
    rw [List.append_assoc, List.append_assoc, h1]
    rfl
  unfold decodeContent extractFrontMatter
  rw [henc]
  rw [if_pos (List.isPrefixOf_iff_prefix.mpr (List.prefix_append fmOpen _))]
  rw [show (fmOpen ++ (joinSep ['\n'] (fm.map renderEntry) ++
      (fmClose ++ ('\n' :: body)))).drop 4 =
    (fmOpen ++ (joinSep ['\n'] (fm.map renderEntry) ++
      (fmClose ++ ('\n' :: body)))).drop fmOpen.length from rfl]
  rw [List.drop_left fmOpen _]
  rw [splitOnFirst_header (fm.map renderEntry) ('\n' :: body) hmapne hsafe]
  show (parseSimpleYaml (joinSep ['\n'] (fm.map renderEntry)), '\n' :: body) = _
  unfold parseSimpleYaml
  rw [splitLines_joinSep (fm.map renderEntry) hmapne
    (fun l hl => (hsafe l hl).1)]
  rw [foldl_insert_rendered fm []
    (fun kv hkv => parseLine_renderEntry kv.1 kv.2 (hkeys kv hkv) (hvals kv hkv))
    (fun kv _ p hp => absurd hp (List.not_mem_nil p))
    hnd]
  rw [List.nil_append]

/-- C2 counterexample: two concrete failures of the stated round trip on
the codec's own output space.  First, for the front matter `title: "A"`
and body `B` the decoded body is `"\nB"`, not `B`: the blank line the
encoder emits after the closing delimiter lands in the decoded body.
Second, decode itself produces the front matter `tags: ["a\"b"]` (an
array element holding a quote, via a JSON escape) from a well-formed
header, but the encoder emits that element without JSON escaping, so
decoding its encoding returns the raw string `["a"b"]` instead of the
array — the round trip fails on this output-space front matter even
with the body newline accounted for. -/
theorem roundtrip_output_space_cex :
    (keyOkB "title".data = true ∧ valOkB (.str "A".data) = true ∧
      decodeContent (encodeFM [("title".data, .str "A".data)] "B".data) =
        ([("title".data, .str "A".data)], "\nB".data) ∧
      decodeContent (encodeFM [("title".data, .str "A".data)] "B".data) ≠
        ([("title".data, .str "A".data)], "B".data)) ∧
    (decodeContent "---\ntags: [\"a\\\"b\"]\n---\nx".data =
        ([("tags".data, .arr [.str "a\"b".data])], "x".data) ∧
      decodeContent (encodeFM [("tags".data, .arr [.str "a\"b".data])] "B".data) =
        ([("tags".data, .str "[\"a\"b\"]".data)], "\nB".data) ∧
      decodeContent (encodeFM [("tags".data, .arr [.str "a\"b".data])] "B".data) ≠
        ([("tags".data, .arr [.str "a\"b".data])], "\nB".data)) := by decide

/-- Witness for `decode_encode_roundtrip` at the same concrete input. -/
theorem decode_encode_roundtrip_witness :
    decodeContent (encodeFM [("title".data, .str "A".data)] "B".data) =
      ([("title".data, .str "A".data)], '\n' :: "B".data) :=
  decode_encode_roundtrip [("title".data, .str "A".data)] "B".data
    (by decide) (by decide) (by decide) (by simp)

end AdminPanel
